import Mathlib

/-!
Verification development for the Town Map Puzzle game (src/TownMapPuzzle.py).

The game is shallowly embedded: the module-level constants, the asset-loading
pipeline, the Piece/Slot data model, the tray layout routine, and the event
handling of `main()` are translated into executable Lean definitions.  The
pointer loops (tray pick-up, slot drop resolution) are translated as structural
recursions over the corresponding Python lists, `random.shuffle` outcomes are
injected as explicit permutation parameters, and a `Reachable` predicate closes
the state space under the event alphabet of the game loop.
-/

namespace TownMapPuzzle

/-- SCREEN_W constant (line 34 of the source). -/
def SCREEN_W : Nat := 960

/-- SCREEN_H constant (line 34 of the source). -/
def SCREEN_H : Nat := 640

/-- COLS constant: board grid columns. -/
def COLS : Nat := 3

/-- ROWS constant: board grid rows. -/
def ROWS : Nat := 3

/-- TILE_SIZE constant: each puzzle piece is TILE_SIZE x TILE_SIZE pixels. -/
def TILE_SIZE : Nat := 160

/-- BOARD_X constant: left edge of the puzzle board area. -/
def BOARD_X : Nat := 350

/-- BOARD_Y constant, computed as in the source with integer division. -/
def BOARD_Y : Nat := (SCREEN_H - ROWS * TILE_SIZE) / 2

/-- TRAY_X constant. -/
def TRAY_X : Nat := 10

/-- TRAY_Y constant. -/
def TRAY_Y : Nat := 10

/-- TRAY_W constant. -/
def TRAY_W : Nat := 320

/-- TRAY_H constant. -/
def TRAY_H : Nat := SCREEN_H - 20

/-- TRAY_COLS constant. -/
def TRAY_COLS : Nat := 2

/-- TRAY_PAD constant. -/
def TRAY_PAD : Nat := 12

/-- A pygame.Rect: integer position and size. -/
structure Rect where
  x : Int
  y : Int
  w : Int
  h : Int
deriving DecidableEq, Repr

/-- pygame.Rect.collidepoint: a point along the right or bottom edge is not
considered inside (half-open intervals on both axes). -/
def Rect.collidepoint (r : Rect) (px py : Int) : Bool :=
  decide (r.x ≤ px) && decide (px < r.x + r.w) &&
  decide (r.y ≤ py) && decide (py < r.y + r.h)

/-- Pixel content of a pygame.Surface used as a tile: either a region of the
loaded town-map image (row-major region index), a procedurally generated
fallback tile (flat colour plus a glyph, the glyph given by its position in
FALLBACK_ICONS), or the full map image. -/
inductive TileContent where
  | slice (idx : Nat)
  | fallback (colour : Nat × Nat × Nat) (icon : Nat)
  | fullMap
deriving DecidableEq, Repr

/-- A pygame.Surface handle: its pixel content together with its current size. -/
structure Image where
  content : TileContent
  w : Int
  h : Int
deriving DecidableEq, Repr

/-- Default image used to totalise list indexing (Python indexing would raise;
all indices used by the game are kept in range by the reachability invariant). -/
def imageDefault : Image := ⟨.slice 0, 0, 0⟩

/-- pygame.transform.scale: same pixel content at a new size. -/
def pyScale (img : Image) (w h : Int) : Image := ⟨img.content, w, h⟩

/-- An exception escaping pygame.image.load (missing file or unreadable data). -/
inductive PyErr where
  | pygameError
deriving DecidableEq, Repr

/-- Environment of the single fallible external operation: whether the map
image file exists on disk, and whether its contents decode as an image. -/
structure AssetEnv where
  fileExists : Bool
  decodable : Bool
deriving DecidableEq, Repr

/-- pygame.image.load on the map image path: succeeds only when the file
exists and decodes; otherwise it raises. -/
def pyImageLoad (env : AssetEnv) : Except PyErr Image :=
  if env.fileExists && env.decodable then .ok ⟨.fullMap, 0, 0⟩
  else .error .pygameError

/-- load_map_tiles (lines 69-99): returns None (with a printed warning) when
the file does not exist, otherwise loads, scales and slices the image into
rows*cols row-major tiles of the requested size.  A load failure on an
existing file propagates as an exception. -/
def load_map_tiles (env : AssetEnv) (tile_size cols rows : Nat) :
    Except PyErr (Option (List Image)) :=
  if !env.fileExists then .ok none
  else
    match pyImageLoad env with
    | .error e => .error e
    | .ok _ =>
      .ok (some ((List.range (rows * cols)).map
        (fun i => ⟨.slice i, (tile_size : Int), (tile_size : Int)⟩)))

/-- FALLBACK_COLOURS (lines 103-107). -/
def FALLBACK_COLOURS : List (Nat × Nat × Nat) :=
  [(100, 140, 190), (80, 170, 100), (190, 130, 80),
   (200, 80, 80), (170, 120, 200), (220, 100, 60),
   (90, 160, 180), (160, 150, 100), (110, 110, 170)]

/-- Number of entries of FALLBACK_ICONS (line 108); the glyphs themselves are
modelled by their position in that list. -/
def FALLBACK_ICONS_length : Nat := 9

/-- make_fallback_tile (lines 110-119): a flat colour chosen by
index mod palette size, with the glyph at the same cyclic position overlaid. -/
def make_fallback_tile (index : Nat) (tile_size : Nat) : Image :=
  { content := .fallback (FALLBACK_COLOURS.getD (index % FALLBACK_COLOURS.length) (0, 0, 0))
      (index % FALLBACK_ICONS_length),
    w := (tile_size : Int), h := (tile_size : Int) }

/-- The module-level asset initialisation (lines 122-136): build map_tiles
(with the fallback when load_map_tiles returned None), then load and scale the
reference image.  The reference-image load is unconditional in the source. -/
def initAssets (env : AssetEnv) : Except PyErr (List Image × Image) :=
  match load_map_tiles env TILE_SIZE COLS ROWS with
  | .error e => .error e
  | .ok mt? =>
    let map_tiles := match mt? with
      | some ts => ts
      | none => (List.range (COLS * ROWS)).map (fun i => make_fallback_tile i TILE_SIZE)
    match pyImageLoad env with
    | .error e => .error e
    | .ok raw =>
      .ok (map_tiles, pyScale raw ((COLS * TILE_SIZE : Nat) : Int) ((ROWS * TILE_SIZE : Nat) : Int))

/-- One puzzle piece (class Piece, lines 139-146). -/
structure Piece where
  index : Nat
  image : Image
  placed : Bool
  rect : Rect
deriving DecidableEq, Repr

/-- Default piece used to totalise list indexing. -/
def pieceDefault : Piece := ⟨0, imageDefault, false, ⟨0, 0, 0, 0⟩⟩

/-- One board slot (class Slot, lines 161-173). -/
structure Slot where
  index : Nat
  rect : Rect
  filled : Bool
deriving DecidableEq, Repr

/-- Default slot used to totalise list indexing. -/
def slotDefault : Slot := ⟨0, ⟨0, 0, 0, 0⟩, false⟩

/-- The fixed board rectangle of slot `index` (Slot.__init__). -/
def slotRect (index : Nat) : Rect :=
  { x := ((BOARD_X + (index % COLS) * TILE_SIZE : Nat) : Int),
    y := ((BOARD_Y + (index / COLS) * TILE_SIZE : Nat) : Int),
    w := (TILE_SIZE : Int), h := (TILE_SIZE : Int) }

/-- Piece.__init__: bound to its home index, carrying map_tiles[index], not
placed, with a TILE_SIZE square rectangle at the origin. -/
def pieceInit (mt : List Image) (index : Nat) : Piece :=
  { index := index, image := mt.getD index imageDefault, placed := false,
    rect := ⟨0, 0, (TILE_SIZE : Int), (TILE_SIZE : Int)⟩ }

/-- Slot.__init__. -/
def slotInit (index : Nat) : Slot := ⟨index, slotRect index, false⟩

/-- The mutable module-level game state of the source: the immutable map_tiles
list, the pieces and slots lists, the shuffled tray order, the drag state, and
the win state. -/
structure GameState where
  map_tiles : List Image
  pieces : List Piece
  slots : List Slot
  shuffled_tray : List Nat
  held_piece : Option Nat
  drag_offset : Int × Int
  complete : Bool
  win_timer : Nat
deriving DecidableEq, Repr

/-- Tray tile width (line 194): fit the panel width evenly across the columns
with fixed padding, by integer division. -/
def tile_w : Nat := (TRAY_W - TRAY_PAD * (TRAY_COLS + 1)) / TRAY_COLS

/-- The tray rectangle assigned to the piece at position `i` of the unplaced
subsequence (lines 195-200): column i mod TRAY_COLS, row i div TRAY_COLS. -/
def trayRect (i : Nat) : Rect :=
  { x := ((TRAY_X + TRAY_PAD + (i % TRAY_COLS) * (tile_w + TRAY_PAD) : Nat) : Int),
    y := ((TRAY_Y + 70 + (i / TRAY_COLS) * (tile_w + TRAY_PAD) : Nat) : Int),
    w := (tile_w : Int), h := (tile_w : Int) }

/-- The enumeration loop of layout_tray: assign each listed piece the tray
rectangle of its position and re-scale its image to the tray tile size. -/
def assignTray (mt : List Image) : List Nat → Nat → List Piece → List Piece
  | [], _, ps => ps
  | j :: rest, i, ps =>
    let pc := ps.getD j pieceDefault
    assignTray mt rest (i + 1)
      (ps.set j { pc with
          rect := trayRect i
          image := pyScale (mt.getD pc.index imageDefault) (tile_w : Int) (tile_w : Int) })

/-- layout_tray (lines 191-202): re-position all un-placed pieces, taken in
shuffled_tray order, inside the tray panel. -/
def layout_tray (mt : List Image) (shuffled : List Nat) (ps : List Piece) : List Piece :=
  assignTray mt (shuffled.filter (fun j => !(ps.getD j pieceDefault).placed)) 0 ps

/-- The MOUSEBUTTONDOWN pick-up loop (lines 319-327): scan the given index
list (the source iterates shuffled_tray reversed) and return the first listed
piece that is unplaced and whose rectangle contains the pointer. -/
def pickLoop (ps : List Piece) (px py : Int) : List Nat → Option Nat
  | [] => none
  | j :: rest =>
    let pc := ps.getD j pieceDefault
    if !pc.placed && pc.rect.collidepoint px py then some j
    else pickLoop ps px py rest

/-- The MOUSEBUTTONUP slot loop (lines 338-347): scan the slots; at the first
unfilled slot containing the pointer, fill it and place the held piece when
the indices match, and stop (break) either way.  Returns the updated slots
list and the updated held piece. -/
def dropLoop (mt : List Image) (hp : Piece) (px py : Int) : List Slot → List Slot × Piece
  | [] => ([], hp)
  | sl :: rest =>
    if !sl.filled && sl.rect.collidepoint px py then
      if sl.index == hp.index then
        ({ sl with filled := true } :: rest,
         { hp with
            placed := true
            rect := sl.rect
            image := pyScale (mt.getD hp.index imageDefault) (TILE_SIZE : Int) (TILE_SIZE : Int) })
      else (sl :: rest, hp)
    else
      let r := dropLoop mt hp px py rest
      (sl :: r.1, r.2)

/-- The reset block at the top of the outer game loop (lines 288-298),
parameterised by the outcome `order` of random.shuffle(shuffled_tray):
reset every piece and slot, clear the drag and win state, re-lay the tray. -/
def newGame (s : GameState) (order : List Nat) : GameState :=
  let ps := s.pieces.map
    (fun pc => { pc with placed := false, image := s.map_tiles.getD pc.index imageDefault })
  { s with shuffled_tray := order,
           pieces := layout_tray s.map_tiles order ps,
           slots := s.slots.map (fun sl => { sl with filled := false }),
           held_piece := none,
           complete := false,
           win_timer := 0 }

/-- The discrete input events handled by the game loop.  A keyR event carries
the outcome of the shuffle performed by the restart it triggers; a tick event
carries the frame duration added to the win timer. -/
inductive Event where
  | keyR (order : List Nat)
  | down (px py : Int)
  | move (px py : Int)
  | up (px py : Int)
  | tick (ms : Nat)

/-- Whether an event is the restart key. -/
def Event.isRestart : Event → Bool
  | .keyR _ => true
  | _ => false

/-- One step of the event-handling loop of main() (lines 305-356). -/
def stepEvent (s : GameState) : Event → GameState
  | .keyR order => newGame s order
  | .down px py =>
    if s.complete then s
    else
      match pickLoop s.pieces px py s.shuffled_tray.reverse with
      | none => s
      | some j =>
        let pc := s.pieces.getD j pieceDefault
        let pc' := { pc with
          image := pyScale (s.map_tiles.getD pc.index imageDefault) (TILE_SIZE : Int) (TILE_SIZE : Int)
          rect := ⟨pc.rect.x, pc.rect.y, (TILE_SIZE : Int), (TILE_SIZE : Int)⟩ }
        { s with pieces := s.pieces.set j pc',
                 held_piece := some j,
                 drag_offset := (px - pc.rect.x, py - pc.rect.y) }
  | .move px py =>
    match s.held_piece with
    | none => s
    | some j =>
      let pc := s.pieces.getD j pieceDefault
      let pc' := { pc with
        rect := { pc.rect with x := px - s.drag_offset.1, y := py - s.drag_offset.2 } }
      { s with pieces := s.pieces.set j pc' }
  | .up px py =>
    match s.held_piece with
    | none => s
    | some k =>
      if s.complete then s
      else
        let hp := s.pieces.getD k pieceDefault
        let r := dropLoop s.map_tiles hp px py s.slots
        let ps' := layout_tray s.map_tiles s.shuffled_tray (s.pieces.set k r.2)
        let s' := { s with slots := r.1, pieces := ps', held_piece := none }
        if r.1.all (fun sl => sl.filled) then { s' with complete := true, win_timer := 0 }
        else s'
  | .tick ms =>
    if s.complete then { s with win_timer := s.win_timer + ms } else s

/-- The module-level game construction (lines 184-214): pieces and slots for
every grid index, the shuffled tray order, the initial tray layout, and the
cleared drag and win state. -/
def initState (mt : List Image) (order : List Nat) : GameState :=
  { map_tiles := mt,
    pieces := layout_tray mt order ((List.range (COLS * ROWS)).map (pieceInit mt)),
    slots := (List.range (COLS * ROWS)).map slotInit,
    shuffled_tray := order,
    held_piece := none,
    drag_offset := (0, 0),
    complete := false,
    win_timer := 0 }

/-- Well-formedness of the tiles the game is built over: one TILE_SIZE-square
surface per grid cell.  Both real branches (sliced image and fallback tiles)
produce exactly this shape. -/
def tilesOk (mt : List Image) : Prop :=
  mt.length = COLS * ROWS ∧
  ∀ i < COLS * ROWS,
    (mt.getD i imageDefault).w = (TILE_SIZE : Int) ∧
    (mt.getD i imageDefault).h = (TILE_SIZE : Int)

/-- Side condition of an event: a restart shuffle permutes the tray order in
place, so its outcome is a permutation of the current order; all other events
are unconstrained. -/
def eventOk : Event → GameState → Prop
  | .keyR order, s => order.Perm s.shuffled_tray
  | _, _ => True

/-- The states reachable from a fresh game by any event sequence. -/
inductive Reachable : GameState → Prop where
  | init (mt : List Image) (order : List Nat) (hmt : tilesOk mt)
      (horder : order.Perm (List.range (COLS * ROWS))) : Reachable (initState mt order)
  | step {s : GameState} (e : Event) (h : Reachable s) (hok : eventOk e s) :
      Reachable (stepEvent s e)

/-- The placed flag of piece `i`. -/
def placedFlag (s : GameState) (i : Nat) : Bool := (s.pieces.getD i pieceDefault).placed

/-- The filled flag of slot `j`. -/
def filledFlag (s : GameState) (j : Nat) : Bool := (s.slots.getD j slotDefault).filled

/-- The indices drawn in the tray (draw, lines 252-255): every index of
shuffled_tray, in order, whose piece is unplaced and is not the held piece. -/
def trayIndices (s : GameState) : List Nat :=
  s.shuffled_tray.filter (fun i => !(s.pieces.getD i pieceDefault).placed && !(s.held_piece == some i))

/-- The indices rendered through their slots (draw, lines 247-249): the placed
pieces. -/
def placedIndices (s : GameState) : List Nat :=
  (List.range (COLS * ROWS)).filter (fun i => (s.pieces.getD i pieceDefault).placed)

/-! ### Generic list lemmas -/

theorem getD_eq_getElem {α : Type} (l : List α) {i : Nat} (h : i < l.length) (d : α) :
    l.getD i d = l[i] := by
  simp [List.getD_eq_getElem?_getD, List.getElem?_eq_getElem h]

theorem getD_set_self {α : Type} {l : List α} {i : Nat} (h : i < l.length) (v d : α) :
    (l.set i v).getD i d = v := by
  simp [List.getD_eq_getElem?_getD, List.getElem?_set_self h]

theorem getD_set_ne {α : Type} {l : List α} {i j : Nat} (h : i ≠ j) (v d : α) :
    (l.set i v).getD j d = l.getD j d := by
  simp [List.getD_eq_getElem?_getD, List.getElem?_set_ne h]

theorem getD_set_eq_ite {α : Type} (l : List α) (i j : Nat) (v d : α) :
    (l.set i v).getD j d = if i = j ∧ j < l.length then v else l.getD j d := by
  by_cases hij : i = j
  · subst hij
    by_cases hl : i < l.length
    · simp [getD_set_self hl, hl]
    · rw [List.set_eq_of_length_le (Nat.le_of_not_lt hl)]
      simp [hl]
  · simp [getD_set_ne hij, hij]

theorem getD_map_lt {α β : Type} (f : α → β) {l : List α} {i : Nat} (h : i < l.length)
    (d : α) (d' : β) : (l.map f).getD i d' = f (l.getD i d) := by
  simp [List.getD_eq_getElem?_getD, List.getElem?_map, List.getElem?_eq_getElem h,
    getD_eq_getElem l h]

theorem getD_range {n i : Nat} (h : i < n) (d : Nat) : (List.range n).getD i d = i := by
  rw [getD_eq_getElem _ (by simpa using h)]
  simp

/-! ### Lemmas about the tray layout loop -/

theorem assignTray_length (mt : List Image) (u : List Nat) (i : Nat) (ps : List Piece) :
    (assignTray mt u i ps).length = ps.length := by
  induction u generalizing i ps with
  | nil => rfl
  | cons j rest ih => simp [assignTray, ih]

theorem assignTray_placed_index (mt : List Image) (u : List Nat) (i : Nat) (ps : List Piece)
    (k : Nat) :
    ((assignTray mt u i ps).getD k pieceDefault).placed = (ps.getD k pieceDefault).placed ∧
    ((assignTray mt u i ps).getD k pieceDefault).index = (ps.getD k pieceDefault).index := by
  induction u generalizing i ps with
  | nil => exact ⟨rfl, rfl⟩
  | cons j rest ih =>
    obtain ⟨h1, h2⟩ := ih (i + 1)
      (ps.set j { ps.getD j pieceDefault with
        rect := trayRect i
        image := pyScale (mt.getD (ps.getD j pieceDefault).index imageDefault)
          (tile_w : Int) (tile_w : Int) })
    refine ⟨h1.trans ?_, h2.trans ?_⟩ <;>
      rw [getD_set_eq_ite] <;> split <;> rename_i hcond <;> simp_all

theorem layout_tray_length (mt : List Image) (sh : List Nat) (ps : List Piece) :
    (layout_tray mt sh ps).length = ps.length :=
  assignTray_length ..

theorem layout_tray_placed (mt : List Image) (sh : List Nat) (ps : List Piece) (k : Nat) :
    ((layout_tray mt sh ps).getD k pieceDefault).placed = (ps.getD k pieceDefault).placed :=
  (assignTray_placed_index ..).1

theorem layout_tray_index (mt : List Image) (sh : List Nat) (ps : List Piece) (k : Nat) :
    ((layout_tray mt sh ps).getD k pieceDefault).index = (ps.getD k pieceDefault).index :=
  (assignTray_placed_index ..).2

/-! ### Lemmas about the pick-up loop -/

theorem pickLoop_found {ps : List Piece} {px py : Int} {l : List Nat} {j : Nat}
    (h : pickLoop ps px py l = some j) :
    j ∈ l ∧ (ps.getD j pieceDefault).placed = false ∧
      (ps.getD j pieceDefault).rect.collidepoint px py = true := by
  induction l with
  | nil => simp [pickLoop] at h
  | cons a rest ih =>
    by_cases hhit : (!(ps.getD a pieceDefault).placed &&
        (ps.getD a pieceDefault).rect.collidepoint px py) = true
    · rw [pickLoop, if_pos hhit] at h
      obtain rfl : a = j := by simpa using h
      simp only [Bool.and_eq_true, Bool.not_eq_true'] at hhit
      exact ⟨List.mem_cons_self .., hhit.1, hhit.2⟩
    · rw [pickLoop, if_neg hhit] at h
      obtain ⟨hm, h1, h2⟩ := ih h
      exact ⟨List.mem_cons_of_mem _ hm, h1, h2⟩

theorem pickLoop_first (ps : List Piece) (px py : Int) (l : List Nat) (t : Nat)
    (ht : t < l.length)
    (hmatch : (ps.getD (l.getD t 0) pieceDefault).placed = false ∧
      (ps.getD (l.getD t 0) pieceDefault).rect.collidepoint px py = true)
    (hmiss : ∀ r, r < t → ¬((ps.getD (l.getD r 0) pieceDefault).placed = false ∧
      (ps.getD (l.getD r 0) pieceDefault).rect.collidepoint px py = true)) :
    pickLoop ps px py l = some (l.getD t 0) := by
  induction l generalizing t with
  | nil => simp at ht
  | cons a rest ih =>
    cases t with
    | zero =>
      simp only [List.getD_cons_zero] at hmatch ⊢
      rw [pickLoop, if_pos (by
        simp only [Bool.and_eq_true, Bool.not_eq_true']
        exact ⟨hmatch.1, hmatch.2⟩)]
    | succ t' =>
      have hhead : ¬((ps.getD a pieceDefault).placed = false ∧
          (ps.getD a pieceDefault).rect.collidepoint px py = true) := by
        simpa using hmiss 0 (Nat.succ_pos _)
      have : (!(ps.getD a pieceDefault).placed &&
          (ps.getD a pieceDefault).rect.collidepoint px py) ≠ true := by
        simp only [ne_eq, Bool.and_eq_true, Bool.not_eq_true']
        exact hhead
      rw [pickLoop, if_neg this]
      simp only [List.getD_cons_succ] at hmatch ⊢
      exact ih t' (by simp only [List.length_cons] at ht; omega) hmatch
        (fun r hr => by simpa using hmiss (r + 1) (by omega))

/-! ### Lemmas about the drop-resolution loop -/

theorem dropLoop_cases (mt : List Image) (hp : Piece) (px py : Int) (l : List Slot) :
    dropLoop mt hp px py l = (l, hp) ∨
    ∃ j, j < l.length ∧
      (l.getD j slotDefault).filled = false ∧
      (l.getD j slotDefault).rect.collidepoint px py = true ∧
      (l.getD j slotDefault).index = hp.index ∧
      dropLoop mt hp px py l =
        (l.set j { l.getD j slotDefault with filled := true },
         { hp with
            placed := true
            rect := (l.getD j slotDefault).rect
            image := pyScale (mt.getD hp.index imageDefault)
              (TILE_SIZE : Int) (TILE_SIZE : Int) }) := by
  induction l with
  | nil => left; rfl
  | cons sl rest ih =>
    by_cases hhit : (!sl.filled && sl.rect.collidepoint px py) = true
    · by_cases hidx : sl.index = hp.index
      · right
        refine ⟨0, Nat.succ_pos _, ?_, ?_, ?_, ?_⟩
        · simpa using (by simpa using hhit : sl.filled = false ∧ _).1
        · simpa using (by simpa [Bool.and_eq_true, Bool.not_eq_true'] using hhit :
            sl.filled = false ∧ sl.rect.collidepoint px py = true).2
        · simpa using hidx
        · rw [dropLoop, if_pos hhit, if_pos (by simpa using hidx)]
          simp
      · left
        rw [dropLoop, if_pos hhit, if_neg (by simpa using hidx)]
    · rcases ih with hmiss | ⟨j, hj, h1, h2, h3, heq⟩
      · left
        rw [dropLoop, if_neg hhit, hmiss]
      · right
        refine ⟨j + 1, by simpa using Nat.succ_lt_succ hj, by simpa using h1,
          by simpa using h2, by simpa using h3, ?_⟩
        rw [dropLoop, if_neg hhit, heq]
        simp

theorem dropLoop_none (mt : List Image) (hp : Piece) (px py : Int) (l : List Slot)
    (h : ∀ m, m < l.length → ¬((l.getD m slotDefault).filled = false ∧
      (l.getD m slotDefault).rect.collidepoint px py = true)) :
    dropLoop mt hp px py l = (l, hp) := by
  induction l with
  | nil => rfl
  | cons sl rest ih =>
    have hhead : ¬(sl.filled = false ∧ sl.rect.collidepoint px py = true) := by
      simpa using h 0 (Nat.succ_pos _)
    have hb : (!sl.filled && sl.rect.collidepoint px py) ≠ true := by
      simp only [ne_eq, Bool.and_eq_true, Bool.not_eq_true']
      exact hhead
    rw [dropLoop, if_neg hb,
      ih (fun m hm => by simpa using h (m + 1) (by simp only [List.length_cons]; omega))]

theorem dropLoop_hit_spec (mt : List Image) (hp : Piece) (px py : Int) (l : List Slot)
    (j : Nat) (hj : j < l.length)
    (hfill : (l.getD j slotDefault).filled = false)
    (hcol : (l.getD j slotDefault).rect.collidepoint px py = true)
    (hmiss : ∀ m, m < j → ¬((l.getD m slotDefault).filled = false ∧
      (l.getD m slotDefault).rect.collidepoint px py = true)) :
    dropLoop mt hp px py l =
      if (l.getD j slotDefault).index = hp.index then
        (l.set j { l.getD j slotDefault with filled := true },
         { hp with
            placed := true
            rect := (l.getD j slotDefault).rect
            image := pyScale (mt.getD hp.index imageDefault)
              (TILE_SIZE : Int) (TILE_SIZE : Int) })
      else (l, hp) := by
  induction l generalizing j with
  | nil => simp at hj
  | cons sl rest ih =>
    cases j with
    | zero =>
      simp only [List.getD_cons_zero] at hfill hcol ⊢
      rw [dropLoop, if_pos (by simp [hfill, hcol])]
      by_cases hidx : sl.index = hp.index
      · rw [if_pos (by simpa using hidx), if_pos hidx]
        simp
      · rw [if_neg (by simpa using hidx), if_neg hidx]
    | succ j' =>
      have hhead : ¬(sl.filled = false ∧ sl.rect.collidepoint px py = true) := by
        simpa using hmiss 0 (Nat.succ_pos _)
      have hb : (!sl.filled && sl.rect.collidepoint px py) ≠ true := by
        simp only [ne_eq, Bool.and_eq_true, Bool.not_eq_true']
        exact hhead
      simp only [List.getD_cons_succ] at hfill hcol ⊢
      rw [dropLoop, if_neg hb,
        ih j' (by simpa using hj) hfill hcol
          (fun m hm => by simpa using hmiss (m + 1) (by omega))]
      split <;> simp

/-! ### The reachability invariant -/

/-- Structural facts holding in every reachable state. -/
structure Inv (s : GameState) : Prop where
  mt_len : s.map_tiles.length = COLS * ROWS
  mt_size : ∀ i < COLS * ROWS,
    (s.map_tiles.getD i imageDefault).w = (TILE_SIZE : Int) ∧
    (s.map_tiles.getD i imageDefault).h = (TILE_SIZE : Int)
  pieces_len : s.pieces.length = COLS * ROWS
  slots_len : s.slots.length = COLS * ROWS
  piece_index : ∀ i < COLS * ROWS, (s.pieces.getD i pieceDefault).index = i
  slot_index : ∀ j < COLS * ROWS, (s.slots.getD j slotDefault).index = j
  slot_rect : ∀ j < COLS * ROWS, (s.slots.getD j slotDefault).rect = slotRect j
  tray_perm : s.shuffled_tray.Perm (List.range (COLS * ROWS))
  complete_eq : s.complete = s.slots.all (fun sl => sl.filled)
  held_lt : ∀ k, s.held_piece = some k → k < COLS * ROWS
  held_unplaced : ∀ k, s.held_piece = some k → (s.pieces.getD k pieceDefault).placed = false
  complete_unheld : s.complete = true → s.held_piece = none

theorem all_filled_false (l : List Slot) (hlen : 0 < l.length)
    (h0 : (l.getD 0 slotDefault).filled = false) :
    l.all (fun sl => sl.filled) = false := by
  cases l with
  | nil => simp at hlen
  | cons sl rest =>
    simp only [List.getD_cons_zero] at h0
    simp [h0]

theorem set_layout_index (mt : List Image) (sh : List Nat) (ps : List Piece) (k : Nat)
    (v : Piece) (i : Nat) :
    ((layout_tray mt sh (ps.set k v)).getD i pieceDefault).index =
      if k = i ∧ i < ps.length then v.index else (ps.getD i pieceDefault).index := by
  rw [layout_tray_index, getD_set_eq_ite]
  split <;> rfl

theorem set_layout_placed (mt : List Image) (sh : List Nat) (ps : List Piece) (k : Nat)
    (v : Piece) (i : Nat) :
    ((layout_tray mt sh (ps.set k v)).getD i pieceDefault).placed =
      if k = i ∧ i < ps.length then v.placed else (ps.getD i pieceDefault).placed := by
  rw [layout_tray_placed, getD_set_eq_ite]
  split <;> rfl

theorem inv_init (mt : List Image) (order : List Nat) (hmt : tilesOk mt)
    (horder : order.Perm (List.range (COLS * ROWS))) : Inv (initState mt order) := by
  obtain ⟨hlen, hsz⟩ := hmt
  refine ⟨hlen, hsz, ?_, ?_, ?_, ?_, ?_, horder, ?_, ?_, ?_, ?_⟩
  · simp [initState, layout_tray_length]
  · simp [initState]
  · intro i hi
    simp only [initState]
    rw [layout_tray_index, getD_map_lt _ (by simpa using hi) 0, getD_range hi]
    rfl
  · intro j hj
    simp only [initState]
    rw [getD_map_lt _ (by simpa using hj) 0, getD_range hj]
    rfl
  · intro j hj
    simp only [initState]
    rw [getD_map_lt _ (by simpa using hj) 0, getD_range hj]
    rfl
  · simp only [initState]
    refine (all_filled_false _ (by decide) ?_).symm
    rw [getD_map_lt _ (by decide) 0]
    rfl
  · intro k hk
    simp [initState] at hk
  · intro k hk
    simp [initState] at hk
  · intro _
    rfl

theorem inv_step {s : GameState} (hs : Inv s) (e : Event) (hok : eventOk e s) :
    Inv (stepEvent s e) := by
  obtain ⟨mt_len, mt_size, pieces_len, slots_len, piece_index, slot_index, slot_rect,
    tray_perm, complete_eq, held_lt, held_unplaced, complete_unheld⟩ := hs
  cases e with
  | keyR order =>
    have hperm : order.Perm (List.range (COLS * ROWS)) :=
      (hok : order.Perm s.shuffled_tray).trans tray_perm
    refine ⟨?_, ?_, ?_, ?_, ?_, ?_, ?_, ?_, ?_, ?_, ?_, ?_⟩
    · simpa [stepEvent, newGame] using mt_len
    · simpa [stepEvent, newGame] using mt_size
    · simp [stepEvent, newGame, layout_tray_length, pieces_len]
    · simp [stepEvent, newGame, slots_len]
    · intro i hi
      have hi' : i < s.pieces.length := by rw [pieces_len]; exact hi
      simp only [stepEvent, newGame]
      rw [layout_tray_index, getD_map_lt _ hi' pieceDefault]
      exact piece_index i hi
    · intro j hj
      have hj' : j < s.slots.length := by rw [slots_len]; exact hj
      simp only [stepEvent, newGame]
      rw [getD_map_lt _ hj' slotDefault]
      exact slot_index j hj
    · intro j hj
      have hj' : j < s.slots.length := by rw [slots_len]; exact hj
      simp only [stepEvent, newGame]
      rw [getD_map_lt _ hj' slotDefault]
      exact slot_rect j hj
    · simpa [stepEvent, newGame] using hperm
    · simp only [stepEvent, newGame]
      refine (all_filled_false _ (by rw [List.length_map, slots_len]; decide) ?_).symm
      rw [getD_map_lt _ (by rw [slots_len]; decide) slotDefault]
    · intro k hk
      simp [stepEvent, newGame] at hk
    · intro k hk
      simp [stepEvent, newGame] at hk
    · intro _
      simp [stepEvent, newGame]
  | down px py =>
    by_cases hc : s.complete = true
    · have hstep : stepEvent s (.down px py) = s := by simp [stepEvent, hc]
      rw [hstep]
      exact ⟨mt_len, mt_size, pieces_len, slots_len, piece_index, slot_index, slot_rect,
        tray_perm, complete_eq, held_lt, held_unplaced, complete_unheld⟩
    · have hc' : s.complete = false := by revert hc; cases s.complete <;> simp
      cases hpick : pickLoop s.pieces px py s.shuffled_tray.reverse with
      | none =>
        have hstep : stepEvent s (.down px py) = s := by simp [stepEvent, hc', hpick]
        rw [hstep]
        exact ⟨mt_len, mt_size, pieces_len, slots_len, piece_index, slot_index, slot_rect,
          tray_perm, complete_eq, held_lt, held_unplaced, complete_unheld⟩
      | some j =>
        obtain ⟨hmem, hunpl, hcol⟩ := pickLoop_found hpick
        have hj9 : j < COLS * ROWS := by
          have : j ∈ List.range (COLS * ROWS) :=
            tray_perm.mem_iff.mp (List.mem_reverse.mp hmem)
          simpa using this
        have hjlen : j < s.pieces.length := by rw [pieces_len]; exact hj9
        have hstep : stepEvent s (.down px py) =
            { s with
                pieces := s.pieces.set j { s.pieces.getD j pieceDefault with
                  image := pyScale (s.map_tiles.getD
                      (s.pieces.getD j pieceDefault).index imageDefault)
                    (TILE_SIZE : Int) (TILE_SIZE : Int)
                  rect := ⟨(s.pieces.getD j pieceDefault).rect.x,
                    (s.pieces.getD j pieceDefault).rect.y,
                    (TILE_SIZE : Int), (TILE_SIZE : Int)⟩ }
                held_piece := some j
                drag_offset := (px - (s.pieces.getD j pieceDefault).rect.x,
                  py - (s.pieces.getD j pieceDefault).rect.y) } := by
          simp [stepEvent, hc', hpick]
        rw [hstep]
        refine ⟨mt_len, mt_size, ?_, slots_len, ?_, slot_index, slot_rect, tray_perm,
          complete_eq, ?_, ?_, ?_⟩
        · simpa using pieces_len
        · intro i hi
          rw [getD_set_eq_ite]
          split
          · rename_i h
            have : (s.pieces.getD j pieceDefault).index = j := piece_index j hj9
            simp only [← h.1]
            exact this
          · exact piece_index i hi
        · intro k hk
          obtain rfl : j = k := by simpa using hk
          exact hj9
        · intro k hk
          obtain rfl : j = k := by simpa using hk
          rw [getD_set_self hjlen]
          exact hunpl
        · intro hcm
          exact absurd hcm (by simp [hc'])
  | move px py =>
    cases hheld : s.held_piece with
    | none =>
      have hstep : stepEvent s (.move px py) = s := by simp [stepEvent, hheld]
      rw [hstep]
      exact ⟨mt_len, mt_size, pieces_len, slots_len, piece_index, slot_index, slot_rect,
        tray_perm, complete_eq, held_lt, held_unplaced, complete_unheld⟩
    | some j =>
      have hj9 : j < COLS * ROWS := held_lt j hheld
      have hjlen : j < s.pieces.length := by rw [pieces_len]; exact hj9
      refine ⟨?_, ?_, ?_, ?_, ?_, ?_, ?_, ?_, ?_, ?_, ?_, ?_⟩
      · simpa [stepEvent, hheld] using mt_len
      · simpa [stepEvent, hheld] using mt_size
      · simpa [stepEvent, hheld] using pieces_len
      · simpa [stepEvent, hheld] using slots_len
      · intro i hi
        simp only [stepEvent, hheld]
        rw [getD_set_eq_ite]
        split
        · rename_i h
          have : (s.pieces.getD j pieceDefault).index = j := piece_index j hj9
          simp only [← h.1]
          exact this
        · exact piece_index i hi
      · intro i hi
        simpa [stepEvent, hheld] using slot_index i hi
      · intro i hi
        simpa [stepEvent, hheld] using slot_rect i hi
      · simpa [stepEvent, hheld] using tray_perm
      · simpa [stepEvent, hheld] using complete_eq
      · intro k hk
        simp [stepEvent, hheld] at hk
        rw [← hk]
        exact hj9
      · intro k hk
        simp [stepEvent, hheld] at hk
        subst hk
        simp only [stepEvent, hheld]
        rw [getD_set_self hjlen]
        exact held_unplaced j hheld
      · intro hcm
        exfalso
        have : s.complete = true := by simpa [stepEvent, hheld] using hcm
        rw [complete_unheld this] at hheld
        cases hheld
  | up px py =>
    cases hheld : s.held_piece with
    | none =>
      have hstep : stepEvent s (.up px py) = s := by simp [stepEvent, hheld]
      rw [hstep]
      exact ⟨mt_len, mt_size, pieces_len, slots_len, piece_index, slot_index, slot_rect,
        tray_perm, complete_eq, held_lt, held_unplaced, complete_unheld⟩
    | some k =>
      by_cases hc : s.complete = true
      · have hstep : stepEvent s (.up px py) = s := by simp [stepEvent, hheld, hc]
        rw [hstep]
        exact ⟨mt_len, mt_size, pieces_len, slots_len, piece_index, slot_index, slot_rect,
          tray_perm, complete_eq, held_lt, held_unplaced, complete_unheld⟩
      · have hc' : s.complete = false := by revert hc; cases s.complete <;> simp
        have hk9 : k < COLS * ROWS := held_lt k hheld
        have hklen : k < s.pieces.length := by rw [pieces_len]; exact hk9
        rcases dropLoop_cases s.map_tiles (s.pieces.getD k pieceDefault) px py s.slots with
          hdrop | ⟨j, hjlen, hjf, hjc, hjidx, hdrop⟩
        · -- missed drop: slots unchanged, piece returns to the tray
          have hall : s.slots.all (fun sl => sl.filled) = false := by
            rw [← complete_eq]
            exact hc'
          have hstep : stepEvent s (.up px py) =
              { s with
                  pieces := layout_tray s.map_tiles s.shuffled_tray
                    (s.pieces.set k (s.pieces.getD k pieceDefault))
                  held_piece := none } := by
            simp only [stepEvent, hheld, hc', Bool.false_eq_true, if_false]
            rw [hdrop]
            simp only [hall, Bool.false_eq_true, if_false]
          rw [hstep]
          refine ⟨mt_len, mt_size, ?_, slots_len, ?_, slot_index, slot_rect, tray_perm,
            ?_, ?_, ?_, ?_⟩
          · simpa [layout_tray_length] using pieces_len
          · intro i hi
            rw [set_layout_index]
            split
            · rename_i h
              rw [← h.1]
              exact piece_index k hk9
            · exact piece_index i hi
          · exact complete_eq
          · intro k' hk'
            cases hk'
          · intro k' hk'
            cases hk'
          · intro _
            rfl
        · -- successful drop: the hit slot has the held piece's index
          have hj9 : j < COLS * ROWS := by rw [← slots_len]; exact hjlen
          have hjk : j = k := by
            have h1 : (s.slots.getD j slotDefault).index = j := slot_index j hj9
            have h2 : (s.pieces.getD k pieceDefault).index = k := piece_index k hk9
            rw [h1, h2] at hjidx
            exact hjidx
          subst hjk
          have hjslot : j < s.slots.length := hjlen
          by_cases hall : (s.slots.set j { s.slots.getD j slotDefault with filled := true
              }).all (fun sl => sl.filled) = true
          · have hstep : stepEvent s (.up px py) =
                { s with
                    slots := s.slots.set j { s.slots.getD j slotDefault with filled := true }
                    pieces := layout_tray s.map_tiles s.shuffled_tray
                      (s.pieces.set j { s.pieces.getD j pieceDefault with
                        placed := true
                        rect := (s.slots.getD j slotDefault).rect
                        image := pyScale (s.map_tiles.getD
                            (s.pieces.getD j pieceDefault).index imageDefault)
                          (TILE_SIZE : Int) (TILE_SIZE : Int) })
                    held_piece := none
                    complete := true
                    win_timer := 0 } := by
              simp only [stepEvent, hheld, hc', Bool.false_eq_true, if_false]
              rw [hdrop]
              simp only [hall, eq_self_iff_true, if_true]
            rw [hstep]
            refine ⟨mt_len, mt_size, ?_, ?_, ?_, ?_, ?_, tray_perm, ?_, ?_, ?_, ?_⟩
            · simpa [layout_tray_length] using pieces_len
            · simpa using slots_len
            · intro i hi
              rw [set_layout_index]
              split
              · rename_i h
                rw [← h.1]
                exact piece_index j hj9
              · exact piece_index i hi
            · intro i hi
              rw [getD_set_eq_ite]
              split
              · rename_i h
                simp only [← h.1]
                exact slot_index j hj9
              · exact slot_index i hi
            · intro i hi
              rw [getD_set_eq_ite]
              split
              · rename_i h
                simp only [← h.1]
                exact slot_rect j hj9
              · exact slot_rect i hi
            · exact hall.symm
            · intro k' hk'
              cases hk'
            · intro k' hk'
              cases hk'
            · intro _
              rfl
          · have hall' : (s.slots.set j { s.slots.getD j slotDefault with filled := true
                }).all (fun sl => sl.filled) = false := by
              revert hall
              cases (s.slots.set j { s.slots.getD j slotDefault with filled := true
                }).all (fun sl => sl.filled) <;> simp
            have hstep : stepEvent s (.up px py) =
                { s with
                    slots := s.slots.set j { s.slots.getD j slotDefault with filled := true }
                    pieces := layout_tray s.map_tiles s.shuffled_tray
                      (s.pieces.set j { s.pieces.getD j pieceDefault with
                        placed := true
                        rect := (s.slots.getD j slotDefault).rect
                        image := pyScale (s.map_tiles.getD
                            (s.pieces.getD j pieceDefault).index imageDefault)
                          (TILE_SIZE : Int) (TILE_SIZE : Int) })
                    held_piece := none } := by
              simp only [stepEvent, hheld, hc', Bool.false_eq_true, if_false]
              rw [hdrop]
              simp only [hall', Bool.false_eq_true, if_false]
            rw [hstep]
            refine ⟨mt_len, mt_size, ?_, ?_, ?_, ?_, ?_, tray_perm, ?_, ?_, ?_, ?_⟩
            · simpa [layout_tray_length] using pieces_len
            · simpa using slots_len
            · intro i hi
              rw [set_layout_index]
              split
              · rename_i h
                rw [← h.1]
                exact piece_index j hj9
              · exact piece_index i hi
            · intro i hi
              rw [getD_set_eq_ite]
              split
              · rename_i h
                simp only [← h.1]
                exact slot_index j hj9
              · exact slot_index i hi
            · intro i hi
              rw [getD_set_eq_ite]
              split
              · rename_i h
                simp only [← h.1]
                exact slot_rect j hj9
              · exact slot_rect i hi
            · rw [hc', hall']
            · intro k' hk'
              cases hk'
            · intro k' hk'
              cases hk'
            · intro _
              rfl
  | tick ms =>
    by_cases hc : s.complete = true
    · have hstep : stepEvent s (.tick ms) =
          { s with win_timer := s.win_timer + ms } := by simp [stepEvent, hc]
      rw [hstep]
      exact ⟨mt_len, mt_size, pieces_len, slots_len, piece_index, slot_index, slot_rect,
        tray_perm, complete_eq, held_lt, held_unplaced, complete_unheld⟩
    · have hstep : stepEvent s (.tick ms) = s := by simp [stepEvent, hc]
      rw [hstep]
      exact ⟨mt_len, mt_size, pieces_len, slots_len, piece_index, slot_index, slot_rect,
        tray_perm, complete_eq, held_lt, held_unplaced, complete_unheld⟩

/-- Every reachable state satisfies the invariant bundle. -/
theorem reachable_inv {s : GameState} (h : Reachable s) : Inv s := by
  induction h with
  | init mt order hmt horder => exact inv_init mt order hmt horder
  | step e _ hok ih => exact inv_step ih e hok

/-! ### Concrete runs used to witness the reachability hypotheses -/

/-- The tiles produced by a successful load: COLS*ROWS row-major slices at
TILE_SIZE. -/
def tiles0 : List Image :=
  (List.range (COLS * ROWS)).map
    (fun i => ⟨.slice i, (TILE_SIZE : Int), (TILE_SIZE : Int)⟩)

theorem tilesOk_tiles0 : tilesOk tiles0 := by
  refine ⟨by decide, ?_⟩
  decide

/-- A fresh game whose shuffle happened to be the identity permutation. -/
def sDemo : GameState := initState tiles0 (List.range (COLS * ROWS))

theorem reachable_sDemo : Reachable sDemo :=
  Reachable.init tiles0 (List.range (COLS * ROWS)) tilesOk_tiles0 (List.Perm.refl _)

theorem reachable_run_noRestart {s : GameState} (h : Reachable s) (es : List Event)
    (hes : ∀ e ∈ es, e.isRestart = false) : Reachable (es.foldl stepEvent s) := by
  induction es generalizing s with
  | nil => exact h
  | cons e rest ih =>
    have hok : eventOk e s := by
      cases e with
      | keyR o =>
        have := hes _ (List.mem_cons_self ..)
        simp [Event.isRestart] at this
      | down px py => trivial
      | move px py => trivial
      | up px py => trivial
      | tick ms => trivial
    exact ih (Reachable.step e h hok) (fun x hx => hes x (List.mem_cons_of_mem _ hx))

/-- The state after picking up the tray-topmost piece under point (25, 85):
piece 0 of the identity shuffle is held and enlarged to TILE_SIZE. -/
def sHeld : GameState := stepEvent sDemo (.down 25 85)

theorem reachable_sHeld : Reachable sHeld :=
  Reachable.step (.down 25 85) reachable_sDemo trivial

/-- An event run that plays the demo game to completion: each round picks the
piece at the head of the tray (point (25, 85)) and drops it on its own slot. -/
def winEvents : List Event :=
  [.down 25 85, .up 360 90, .down 25 85, .up 520 90, .down 25 85, .up 680 90,
   .down 25 85, .up 360 250, .down 25 85, .up 520 250, .down 25 85, .up 680 250,
   .down 25 85, .up 360 410, .down 25 85, .up 520 410, .down 25 85, .up 680 410]

/-- The completed game. -/
def sWin : GameState := winEvents.foldl stepEvent sDemo

theorem reachable_sWin : Reachable sWin :=
  reachable_run_noRestart reachable_sDemo winEvents (by decide)

/-! ### The claims -/

/-- C1 (code bug): the claim says a missing map picture is non-fatal.  The
fallback path of load_map_tiles does return None so that placeholder tiles get
built (first conjunct), but the module-level reference-image load at line 132
runs unconditionally on the same path and raises, aborting startup before the
game loop ever runs (second conjunct). -/
theorem C1_missing_asset_aborts_startup :
    (∀ b, load_map_tiles ⟨false, b⟩ TILE_SIZE COLS ROWS = .ok none) ∧
    (∀ b, initAssets ⟨false, b⟩ = .error .pygameError) := by
  constructor <;> intro b <;> cases b <;> rfl

/-- C3: in every reachable state, complete is true exactly when every slot is
filled. -/
theorem C3_complete_iff_all_filled {s : GameState} (hs : Reachable s) :
    s.complete = true ↔ ∀ j, j < COLS * ROWS → filledFlag s j = true := by
  have inv := reachable_inv hs
  rw [inv.complete_eq, List.all_eq_true]
  constructor
  · intro h j hj
    have hj' : j < s.slots.length := by rw [inv.slots_len]; exact hj
    have := h s.slots[j] (s.slots.getElem_mem hj')
    rwa [filledFlag, getD_eq_getElem _ hj']
  · intro h x hx
    obtain ⟨n, hn, rfl⟩ := List.mem_iff_getElem.mp hx
    have := h n (by rw [← inv.slots_len]; exact hn)
    rwa [filledFlag, getD_eq_getElem _ hn] at this

/-- C4: in every reachable state at most one piece is held (the drag slot is a
single optional reference) and the held piece is never placed. -/
theorem C4_held_unique_and_unplaced {s : GameState} (hs : Reachable s) :
    (∀ k k', s.held_piece = some k → s.held_piece = some k' → k = k') ∧
    (∀ k, s.held_piece = some k → placedFlag s k = false) := by
  have inv := reachable_inv hs
  refine ⟨?_, inv.held_unplaced⟩
  intro k k' h h'
  rw [h] at h'
  exact Option.some_injective _ h'.symm |>.symm

theorem count_filter_of_pos {α : Type} [BEq α] [LawfulBEq α] (p : α → Bool) (l : List α) (a : α)
    (h : p a = true) : (l.filter p).count a = l.count a :=
  List.count_filter h

/-- C5: in every reachable state the tray pieces, the placed pieces and the
held piece (if any) together carry every index of [0, COLS*ROWS) exactly
once. -/
theorem C5_piece_conservation {s : GameState} (hs : Reachable s) :
    (trayIndices s ++ (placedIndices s ++ s.held_piece.toList)).Perm
      (List.range (COLS * ROWS)) := by
  have inv := reachable_inv hs
  rw [List.perm_iff_count]
  intro a
  rw [List.count_append, List.count_append]
  by_cases ha9 : a < COLS * ROWS
  · have hrange : (List.range (COLS * ROWS)).count a = 1 :=
      List.count_eq_one_of_mem (List.nodup_range _) (List.mem_range.mpr ha9)
    have htray : s.shuffled_tray.count a = 1 := by
      rw [inv.tray_perm.count_eq]
      exact hrange
    rw [hrange]
    by_cases hp : (s.pieces.getD a pieceDefault).placed = true
    · have hheld : ¬s.held_piece = some a := by
        intro h
        rw [inv.held_unplaced a h] at hp
        cases hp
      have h1 : (trayIndices s).count a = 0 := by
        apply List.count_eq_zero_of_not_mem
        intro hmem
        rw [trayIndices, List.mem_filter] at hmem
        have hpred : (!(s.pieces.getD a pieceDefault).placed &&
            !(s.held_piece == some a)) = true := hmem.2
        rw [hp] at hpred
        simp at hpred
      have h2 : (placedIndices s).count a = 1 := by
        rw [placedIndices, count_filter_of_pos
          (fun i => (s.pieces.getD i pieceDefault).placed) _ a hp]
        exact hrange
      have h3 : (s.held_piece.toList).count a = 0 := by
        cases hh : s.held_piece with
        | none => rfl
        | some k =>
          have hka : ¬k = a := fun h => hheld (h ▸ hh)
          simp [List.count_cons, hka]
      omega
    · have hp' : (s.pieces.getD a pieceDefault).placed = false := by
        revert hp
        cases (s.pieces.getD a pieceDefault).placed <;> simp
      by_cases hh : s.held_piece = some a
      · have h1 : (trayIndices s).count a = 0 := by
          apply List.count_eq_zero_of_not_mem
          intro hmem
          rw [trayIndices, List.mem_filter] at hmem
          have hpred : (!(s.pieces.getD a pieceDefault).placed &&
              !(s.held_piece == some a)) = true := hmem.2
          rw [hh] at hpred
          simp at hpred
        have h2 : (placedIndices s).count a = 0 := by
          apply List.count_eq_zero_of_not_mem
          intro hmem
          rw [placedIndices, List.mem_filter] at hmem
          have hpred : (s.pieces.getD a pieceDefault).placed = true := hmem.2
          rw [hp'] at hpred
          cases hpred
        have h3 : (s.held_piece.toList).count a = 1 := by
          rw [hh]
          simp
        omega
      · have h1 : (trayIndices s).count a = 1 := by
          rw [trayIndices, count_filter_of_pos
            (fun i => !(s.pieces.getD i pieceDefault).placed && !(s.held_piece == some i))
            s.shuffled_tray a
            (by
              show (!(s.pieces.getD a pieceDefault).placed && !(s.held_piece == some a)) = true
              rw [hp']
              simp only [Bool.not_false, Bool.true_and, Bool.not_eq_true',
                beq_eq_false_iff_ne, ne_eq]
              exact hh)]
          exact htray
        have h2 : (placedIndices s).count a = 0 := by
          apply List.count_eq_zero_of_not_mem
          intro hmem
          rw [placedIndices, List.mem_filter] at hmem
          have hpred : (s.pieces.getD a pieceDefault).placed = true := hmem.2
          rw [hp'] at hpred
          cases hpred
        have h3 : (s.held_piece.toList).count a = 0 := by
          cases hhh : s.held_piece with
          | none => rfl
          | some k =>
            have hka : ¬k = a := fun h => hh (h ▸ hhh)
            simp [List.count_cons, hka]
        omega
  · have hrange0 : (List.range (COLS * ROWS)).count a = 0 :=
      List.count_eq_zero_of_not_mem (by simpa using ha9)
    have htray0 : s.shuffled_tray.count a = 0 := by
      rw [inv.tray_perm.count_eq]
      exact hrange0
    have h1 : (trayIndices s).count a = 0 := by
      have hle : (trayIndices s).count a ≤ s.shuffled_tray.count a :=
        (List.filter_sublist s.shuffled_tray).count_le a
      rw [htray0] at hle
      exact Nat.le_zero.mp hle
    have h2 : (placedIndices s).count a = 0 := by
      have hle : (placedIndices s).count a ≤ (List.range (COLS * ROWS)).count a :=
        (List.filter_sublist (List.range (COLS * ROWS))).count_le a
      rw [hrange0] at hle
      exact Nat.le_zero.mp hle
    have h3 : (s.held_piece.toList).count a = 0 := by
      cases hh : s.held_piece with
      | none => rfl
      | some k =>
        have hk := inv.held_lt k hh
        have hka : ¬k = a := by omega
        simp [List.count_cons, hka]
    rw [hrange0]
    omega

/-- C7: the restart key resets the whole session: the tray order becomes the
fresh shuffle, no piece is placed and no slot filled, the drag and win state
are cleared, the pieces list is the reset list re-laid into the tray, and the
reset gives every piece its full-TILE_SIZE image back before the relayout. -/
theorem C7_restart_resets {s : GameState} (hs : Reachable s) (order : List Nat)
    (horder : order.Perm s.shuffled_tray) :
    (stepEvent s (.keyR order)).shuffled_tray = order ∧
    (stepEvent s (.keyR order)).held_piece = none ∧
    (stepEvent s (.keyR order)).complete = false ∧
    (stepEvent s (.keyR order)).win_timer = 0 ∧
    (∀ i, i < COLS * ROWS → placedFlag (stepEvent s (.keyR order)) i = false) ∧
    (∀ j, j < COLS * ROWS → filledFlag (stepEvent s (.keyR order)) j = false) ∧
    (stepEvent s (.keyR order)).pieces =
      layout_tray s.map_tiles order (s.pieces.map (fun pc =>
        { pc with placed := false, image := s.map_tiles.getD pc.index imageDefault })) ∧
    (∀ i, i < COLS * ROWS →
      ((s.pieces.map (fun pc =>
          { pc with placed := false, image := s.map_tiles.getD pc.index imageDefault })).getD
        i pieceDefault).image = s.map_tiles.getD i imageDefault ∧
      (s.map_tiles.getD i imageDefault).w = (TILE_SIZE : Int) ∧
      (s.map_tiles.getD i imageDefault).h = (TILE_SIZE : Int)) := by
  have inv := reachable_inv hs
  refine ⟨rfl, rfl, rfl, rfl, ?_, ?_, rfl, ?_⟩
  · intro i hi
    have hi' : i < s.pieces.length := by rw [inv.pieces_len]; exact hi
    show ((layout_tray _ _ _).getD i pieceDefault).placed = false
    rw [layout_tray_placed, getD_map_lt _ hi' pieceDefault]
  · intro j hj
    have hj' : j < s.slots.length := by rw [inv.slots_len]; exact hj
    show ((s.slots.map _).getD j slotDefault).filled = false
    rw [getD_map_lt _ hj' slotDefault]
  · intro i hi
    have hi' : i < s.pieces.length := by rw [inv.pieces_len]; exact hi
    rw [getD_map_lt _ hi' pieceDefault]
    refine ⟨?_, (inv.mt_size i hi).1, (inv.mt_size i hi).2⟩
    show s.map_tiles.getD (s.pieces.getD i pieceDefault).index imageDefault = _
    rw [inv.piece_index i hi]

theorem layout_tray_eq_assign (mt : List Image) (sh : List Nat) (ps : List Piece) :
    layout_tray mt sh ps =
      assignTray mt (sh.filter (fun j => !(ps.getD j pieceDefault).placed)) 0 ps := rfl

theorem assignTray_comm (mt : List Image) (u : List Nat) :
    ∀ (p : Nat) (ps : List Piece) (i : Nat) (v : Piece), i ∉ u →
      assignTray mt u p (ps.set i v) = (assignTray mt u p ps).set i v := by
  induction u with
  | nil =>
    intro p ps i v _
    rfl
  | cons j rest ih =>
    intro p ps i v hi
    have hji : j ≠ i := fun h => hi (h ▸ List.mem_cons_self ..)
    have hirest : i ∉ rest := fun h => hi (List.mem_cons_of_mem _ h)
    simp only [assignTray]
    rw [getD_set_ne (Ne.symm hji)]
    rw [List.set_comm _ _ _ (Ne.symm hji)]
    exact ih _ _ _ _ hirest

theorem assignTray_idem (mt : List Image) (u : List Nat) :
    ∀ (p : Nat) (ps : List Piece), u.Nodup →
      assignTray mt u p (assignTray mt u p ps) = assignTray mt u p ps := by
  induction u with
  | nil =>
    intro p ps _
    rfl
  | cons j rest ih =>
    intro p ps hu
    obtain ⟨hjrest, hrest⟩ := List.nodup_cons.mp hu
    by_cases hjlen : j < ps.length
    · have hA := assignTray_comm mt rest (p + 1) ps j
        { ps.getD j pieceDefault with
          rect := trayRect p
          image := pyScale (mt.getD (ps.getD j pieceDefault).index imageDefault)
            (tile_w : Int) (tile_w : Int) } hjrest
      simp only [assignTray]
      rw [hA]
      have hXlen : j < (assignTray mt rest (p + 1) ps).length := by
        rw [assignTray_length]
        exact hjlen
      rw [getD_set_self hXlen]
      dsimp only
      rw [List.set_set]
      rw [assignTray_comm mt rest _ _ _ _ hjrest]
      rw [ih _ _ hrest]
    · have hset : ps.set j { ps.getD j pieceDefault with
          rect := trayRect p
          image := pyScale (mt.getD (ps.getD j pieceDefault).index imageDefault)
            (tile_w : Int) (tile_w : Int) } = ps :=
        List.set_eq_of_length_le (Nat.le_of_not_lt hjlen)
      simp only [assignTray]
      rw [hset]
      have hlen2 : (assignTray mt rest (p + 1) ps).length ≤ j := by
        rw [assignTray_length]
        omega
      rw [List.set_eq_of_length_le hlen2]
      exact ih _ _ hrest

/-- C8: tray relayout is idempotent: applied twice to the same display order
and placement flags it assigns the same rectangles (and tray-scaled images) as
a single application. -/
theorem C8_relayout_idempotent {s : GameState} (hs : Reachable s) :
    layout_tray s.map_tiles s.shuffled_tray (layout_tray s.map_tiles s.shuffled_tray s.pieces) =
      layout_tray s.map_tiles s.shuffled_tray s.pieces := by
  have inv := reachable_inv hs
  have hnd : s.shuffled_tray.Nodup := inv.tray_perm.nodup_iff.mpr (List.nodup_range _)
  have hfilter : s.shuffled_tray.filter
      (fun j => !((layout_tray s.map_tiles s.shuffled_tray s.pieces).getD j pieceDefault).placed)
      = s.shuffled_tray.filter (fun j => !(s.pieces.getD j pieceDefault).placed) := by
    apply List.filter_congr
    intro x _
    rw [layout_tray_placed]
  rw [layout_tray_eq_assign s.map_tiles s.shuffled_tray
    (layout_tray s.map_tiles s.shuffled_tray s.pieces), hfilter,
    layout_tray_eq_assign s.map_tiles s.shuffled_tray s.pieces]
  exact assignTray_idem s.map_tiles _ 0 s.pieces (hnd.filter _)

/-- Board slots tile disjoint regions of the screen: a point inside two slot
rectangles identifies the slot. -/
theorem slotRect_inj {m j : Nat} (hm : m < COLS * ROWS) (hj : j < COLS * ROWS)
    {px py : Int} (hcm : (slotRect m).collidepoint px py = true)
    (hcj : (slotRect j).collidepoint px py = true) : m = j := by
  simp only [slotRect, Rect.collidepoint, Bool.and_eq_true, decide_eq_true_eq] at hcm hcj
  obtain ⟨⟨⟨m1, m2⟩, m3⟩, m4⟩ := hcm
  obtain ⟨⟨⟨j1, j2⟩, j3⟩, j4⟩ := hcj
  simp only [COLS, ROWS, TILE_SIZE, BOARD_X, BOARD_Y, SCREEN_H] at *
  push_cast at m1 m2 m3 m4 j1 j2 j3 j4
  omega

/-- The pointer-up handler with a held piece and the game not complete:
the resulting slots are the drop loop's slots and the resulting pieces are the
re-laid tray over the drop loop's updated held piece. -/
theorem up_state_proj {s : GameState} {k : Nat} (hheld : s.held_piece = some k)
    (hc : s.complete = false) (px py : Int) :
    (stepEvent s (.up px py)).slots =
      (dropLoop s.map_tiles (s.pieces.getD k pieceDefault) px py s.slots).1 ∧
    (stepEvent s (.up px py)).pieces =
      layout_tray s.map_tiles s.shuffled_tray
        (s.pieces.set k (dropLoop s.map_tiles (s.pieces.getD k pieceDefault) px py s.slots).2) ∧
    (stepEvent s (.up px py)).held_piece = none := by
  simp only [stepEvent, hheld, hc, Bool.false_eq_true, if_false]
  refine ⟨?_, ?_, ?_⟩ <;> (split <;> rfl)

/-- C2: while a piece with home index k is held, pointer-up inside an
unfilled slot j places the piece and fills the slot exactly when j = k, and
in every other outcome (mismatching slot, or every slot under the point
filled or no slot under the point at all) no placed and no filled flag
changes. -/
theorem C2_drop_resolution {s : GameState} (hs : Reachable s) {k : Nat}
    (hheld : s.held_piece = some k) (px py : Int) :
    (∀ j, j < COLS * ROWS →
      (s.slots.getD j slotDefault).filled = false →
      (s.slots.getD j slotDefault).rect.collidepoint px py = true →
      ((placedFlag (stepEvent s (.up px py)) k = true ∧
        filledFlag (stepEvent s (.up px py)) j = true) ↔ j = k) ∧
      (j ≠ k →
        (∀ i, placedFlag (stepEvent s (.up px py)) i = placedFlag s i) ∧
        (∀ i, filledFlag (stepEvent s (.up px py)) i = filledFlag s i))) ∧
    ((∀ j, j < COLS * ROWS →
        (s.slots.getD j slotDefault).rect.collidepoint px py = true →
        (s.slots.getD j slotDefault).filled = true) →
      (∀ i, placedFlag (stepEvent s (.up px py)) i = placedFlag s i) ∧
      (∀ i, filledFlag (stepEvent s (.up px py)) i = filledFlag s i)) := by
  have inv := reachable_inv hs
  have hk9 : k < COLS * ROWS := inv.held_lt k hheld
  have hklen : k < s.pieces.length := by rw [inv.pieces_len]; exact hk9
  have hc : s.complete = false := by
    cases hcomp : s.complete with
    | false => rfl
    | true =>
      rw [inv.complete_unheld hcomp] at hheld
      cases hheld
  obtain ⟨hslots, hpieces, -⟩ := up_state_proj hheld hc px py
  constructor
  · intro j hj9 hjf hjc
    have hjlen : j < s.slots.length := by rw [inv.slots_len]; exact hj9
    have hmiss : ∀ m, m < j → ¬((s.slots.getD m slotDefault).filled = false ∧
        (s.slots.getD m slotDefault).rect.collidepoint px py = true) := by
      rintro m hmj ⟨-, hcol⟩
      have hm9 : m < COLS * ROWS := lt_trans hmj hj9
      rw [inv.slot_rect m hm9] at hcol
      rw [inv.slot_rect j hj9] at hjc
      exact absurd (slotRect_inj hm9 hj9 hcol hjc) (Nat.ne_of_lt hmj)
    have hdrop := dropLoop_hit_spec s.map_tiles (s.pieces.getD k pieceDefault) px py
      s.slots j hjlen hjf hjc hmiss
    rw [inv.slot_index j hj9, inv.piece_index k hk9] at hdrop
    by_cases hjk : j = k
    · subst hjk
      rw [if_pos rfl] at hdrop
      rw [hdrop] at hslots hpieces
      constructor
      · constructor
        · intro _
          rfl
        · intro _
          constructor
          · rw [placedFlag, hpieces, layout_tray_placed, getD_set_self hklen]
          · rw [filledFlag, hslots, getD_set_self hjlen]
      · intro hne
        exact absurd rfl hne
    · rw [if_neg hjk] at hdrop
      rw [hdrop] at hslots hpieces
      have hnoplace : ∀ i, placedFlag (stepEvent s (.up px py)) i = placedFlag s i := by
        intro i
        rw [placedFlag, placedFlag, hpieces, set_layout_placed]
        split
        · rename_i h
          rw [← h.1]
        · rfl
      have hnofill : ∀ i, filledFlag (stepEvent s (.up px py)) i = filledFlag s i := by
        intro i
        rw [filledFlag, filledFlag, hslots]
      refine ⟨?_, fun _ => ⟨hnoplace, hnofill⟩⟩
      constructor
      · intro h
        exfalso
        have h2 := hnofill j
        rw [h.2] at h2
        simp only [filledFlag, hjf] at h2
        exact Bool.noConfusion h2
      · intro h
        exact absurd h hjk
  · intro hAll
    have hnone : dropLoop s.map_tiles (s.pieces.getD k pieceDefault) px py s.slots =
        (s.slots, s.pieces.getD k pieceDefault) := by
      apply dropLoop_none
      rintro m hm ⟨hf, hcol⟩
      have hm9 : m < COLS * ROWS := by rw [← inv.slots_len]; exact hm
      rw [hAll m hm9 hcol] at hf
      cases hf
    rw [hnone] at hslots hpieces
    constructor
    · intro i
      rw [placedFlag, placedFlag, hpieces, set_layout_placed]
      split
      · rename_i h
        rw [← h.1]
      · rfl
    · intro i
      rw [filledFlag, filledFlag, hslots]

theorem reverse_getD {l : List Nat} {r : Nat} (hr : r < l.length) (d : Nat) :
    l.reverse.getD r d = l.getD (l.length - 1 - r) d := by
  rw [getD_eq_getElem _ (by simpa using hr), getD_eq_getElem _ (by omega)]
  exact List.getElem_reverse _

/-- C6: the pick-up loop scans the reverse of display order, so when exactly
the pieces at positions pi < pj of the display order are unplaced and under
the pointer, the one later in display order (the one drawn last, hence on
top) is the one that becomes held. -/
theorem C6_topmost_piece_is_picked {s : GameState} (hs : Reachable s)
    (hc : s.complete = false) (px py : Int) (pi pj : Nat)
    (hpj : pj < s.shuffled_tray.length) (hij : pi < pj)
    (hmi : (s.pieces.getD (s.shuffled_tray.getD pi 0) pieceDefault).placed = false ∧
      (s.pieces.getD (s.shuffled_tray.getD pi 0) pieceDefault).rect.collidepoint px py = true)
    (hmj : (s.pieces.getD (s.shuffled_tray.getD pj 0) pieceDefault).placed = false ∧
      (s.pieces.getD (s.shuffled_tray.getD pj 0) pieceDefault).rect.collidepoint px py = true)
    (honly : ∀ q, q < s.shuffled_tray.length →
      ((s.pieces.getD (s.shuffled_tray.getD q 0) pieceDefault).placed = false ∧
        (s.pieces.getD (s.shuffled_tray.getD q 0) pieceDefault).rect.collidepoint px py
          = true) →
      q = pi ∨ q = pj) :
    (stepEvent s (.down px py)).held_piece = some (s.shuffled_tray.getD pj 0) := by
  have hn : s.shuffled_tray.length = s.shuffled_tray.reverse.length := by simp
  have ht : s.shuffled_tray.length - 1 - pj < s.shuffled_tray.reverse.length := by
    rw [← hn]
    omega
  have hrevj : s.shuffled_tray.reverse.getD (s.shuffled_tray.length - 1 - pj) 0 =
      s.shuffled_tray.getD pj 0 := by
    rw [reverse_getD (by omega) 0]
    congr 1
    omega
  have hpick : pickLoop s.pieces px py s.shuffled_tray.reverse =
      some (s.shuffled_tray.getD pj 0) := by
    rw [← hrevj]
    apply pickLoop_first s.pieces px py s.shuffled_tray.reverse
      (s.shuffled_tray.length - 1 - pj) ht
    · rw [hrevj]
      exact hmj
    · intro r hr
      rw [reverse_getD (by omega) 0]
      intro hmatch
      have hq := honly (s.shuffled_tray.length - 1 - r) (by omega) hmatch
      omega
  simp only [stepEvent, hc, Bool.false_eq_true, if_false, hpick]

/-- C9: once complete, every pointer-down is a no-op, and no event other than
the restart key can make complete false again. -/
theorem C9_complete_ignores_pointer_down {s : GameState} (hs : Reachable s)
    (hc : s.complete = true) :
    (∀ px py, stepEvent s (.down px py) = s) ∧
    (∀ e, e.isRestart = false → (stepEvent s e).complete = true) := by
  have inv := reachable_inv hs
  constructor
  · intro px py
    simp [stepEvent, hc]
  · intro e he
    cases e with
    | keyR o => simp [Event.isRestart] at he
    | down px py => simp [stepEvent, hc]
    | move px py =>
      have hnone := inv.complete_unheld hc
      simp [stepEvent, hnone, hc]
    | up px py =>
      have hnone := inv.complete_unheld hc
      simp [stepEvent, hnone, hc]
    | tick ms => simp [stepEvent, hc]

/-- C10 (implicit): completion never coexists with a drag in a reachable
state, so the not-complete guard on the pointer-up path never blocks a real
drop. -/
theorem C10_complete_never_while_held {s : GameState} (hs : Reachable s) :
    (s.complete = true → s.held_piece = none) ∧
    (∀ k, s.held_piece = some k → s.complete = false) := by
  have inv := reachable_inv hs
  refine ⟨inv.complete_unheld, ?_⟩
  intro k hk
  cases hcomp : s.complete with
  | false => rfl
  | true =>
    rw [inv.complete_unheld hcomp] at hk
    cases hk

/-! ### Witnesses: the claim theorems applied at concrete reachable states -/

/-- A mid-game state: the first three pieces have been placed. -/
def sMid : GameState := (winEvents.take 6).foldl stepEvent sDemo

theorem reachable_sMid : Reachable sMid :=
  reachable_run_noRestart reachable_sDemo (winEvents.take 6) (by decide)

theorem C2_drop_resolution_witness :
    sHeld.held_piece = some 0 ∧
    (sHeld.slots.getD 0 slotDefault).filled = false ∧
    ((placedFlag (stepEvent sHeld (.up 400 100)) 0 = true ∧
      filledFlag (stepEvent sHeld (.up 400 100)) 0 = true) ↔ (0 : Nat) = 0) := by
  refine ⟨by decide, by decide, ?_⟩
  exact ((C2_drop_resolution reachable_sHeld (by decide) 400 100).1 0
    (by decide) (by decide) (by decide)).1

theorem C3_complete_iff_all_filled_witness :
    (sDemo.complete = true ↔ ∀ j, j < COLS * ROWS → filledFlag sDemo j = true) :=
  C3_complete_iff_all_filled reachable_sDemo

theorem C4_held_unique_and_unplaced_witness :
    sHeld.held_piece = some 0 ∧ placedFlag sHeld 0 = false := by
  refine ⟨by decide, ?_⟩
  exact (C4_held_unique_and_unplaced reachable_sHeld).2 0 (by decide)

theorem C5_piece_conservation_witness :
    (trayIndices sHeld ++ (placedIndices sHeld ++ sHeld.held_piece.toList)).Perm
      (List.range (COLS * ROWS)) :=
  C5_piece_conservation reachable_sHeld

theorem C6_topmost_piece_is_picked_witness :
    (stepEvent sHeld (.down 178 85)).held_piece = some 1 := by
  have h := C6_topmost_piece_is_picked reachable_sHeld (by decide) 178 85 0 1
    (by decide) (by decide) (by decide) (by decide) (by decide)
  have h2 : sHeld.shuffled_tray.getD 1 0 = 1 := by decide
  rw [h2] at h
  exact h

theorem C7_restart_resets_witness :
    placedFlag sMid 0 = true ∧
    (stepEvent sMid (.keyR (List.range (COLS * ROWS)).reverse)).complete = false ∧
    (stepEvent sMid (.keyR (List.range (COLS * ROWS)).reverse)).win_timer = 0 ∧
    (∀ i, i < COLS * ROWS →
      placedFlag (stepEvent sMid (.keyR (List.range (COLS * ROWS)).reverse)) i = false) ∧
    (∀ j, j < COLS * ROWS →
      filledFlag (stepEvent sMid (.keyR (List.range (COLS * ROWS)).reverse)) j = false) := by
  have h := C7_restart_resets reachable_sMid (List.range (COLS * ROWS)).reverse (by decide)
  exact ⟨by decide, h.2.2.1, h.2.2.2.1, h.2.2.2.2.1, h.2.2.2.2.2.1⟩

theorem C8_relayout_idempotent_witness :
    layout_tray sMid.map_tiles sMid.shuffled_tray
        (layout_tray sMid.map_tiles sMid.shuffled_tray sMid.pieces) =
      layout_tray sMid.map_tiles sMid.shuffled_tray sMid.pieces :=
  C8_relayout_idempotent reachable_sMid

theorem C9_complete_ignores_pointer_down_witness :
    sWin.complete = true ∧ (∀ px py, stepEvent sWin (.down px py) = sWin) := by
  refine ⟨by decide, ?_⟩
  exact (C9_complete_ignores_pointer_down reachable_sWin (by decide)).1

theorem C10_complete_never_while_held_witness :
    sWin.complete = true ∧ sWin.held_piece = none := by
  refine ⟨by decide, ?_⟩
  exact (C10_complete_never_while_held reachable_sWin).1 (by decide)

end TownMapPuzzle
